import Mathlib

/-!
# retarget_io: UART ring buffer behind the newlib read/write hooks

Shallow embedding of `retarget_io.c` / `retarget_io.h` (XMC CCU4 capture example).

* Bytes, indices and addresses are natural numbers. The target is a 32-bit ARM Cortex-M
  (XMC), so `int` and `long` are 32-bit two's complement and `size_t` is an unsigned
  32-bit type; a conversion into `int` is written out as a reduction modulo `2^32`.
* The global `serial_buffer`, the `static uint8_t data` of the receive handler, the memory
  reached through `buf`, the bytes handed to the UART and the NVIC settings are the fields
  of an explicit state `World` that every function passes along. The backing array of
  `serial_buffer` is a field of its own, so it never overlaps the memory behind `buf`.
* A `for (size_t i = 0; i < count; ++i)` loop is a function recursive in the number
  `count - i` of iterations left; `buf` is the address the pointer holds.
* `ring_buffer.h` is not among the sources: `ring_buffer_t`, `RING_BUFFER_DEF`,
  `ring_buffer_put` and `ring_buffer_get` follow section 4.1 of the specification.
* The interrupt handler is a function of the state like the others: one call of `_read`
  runs without a handler invocation in between.
-/

set_option linter.unusedVariables false

namespace Retarget

/-! ## Machine integers -/

/-- Largest value of `int` on the target. -/
def INT_MAX : Int := 2147483647

/-- Largest value of `size_t` on the target. -/
def SIZE_MAX : Nat := 4294967295

/-- Conversion of an integer value to `int`, as gcc defines it: reduction modulo `2^32` into
the range `-2^31 .. 2^31 - 1`. -/
def to_int (x : Int) : Int := (x + 2147483648) % 4294967296 - 2147483648

/-- Conversion of a value to `uint8_t`. -/
def to_uint8 (x : Nat) : Nat := x % 256

/-! ## Ring buffer -/

/-- Value of the macro `SERIAL_BUFFER_SIZE` (retarget_io.h). -/
def SERIAL_BUFFER_SIZE : Nat := 128

/-- Modelled from the spec: the type `ring_buffer_t` of the absent `ring_buffer.h`. A backing
array of bytes of capacity `N` (slot `i` is `buffer i`, only slots below `N` are used), the index
`head` of the next slot to write and the index `tail` of the next slot to read. -/
@[ext]
structure ring_buffer_t (N : Nat) where
  buffer : Nat → Nat
  head : Nat
  tail : Nat

/-- Modelled from the spec: the macro `RING_BUFFER_DEF(name, size)` of the absent `ring_buffer.h`;
the buffer exists from process start with `head = tail = 0`. -/
def RING_BUFFER_DEF (size : Nat) : ring_buffer_t size :=
  { buffer := fun _ => 0, head := 0, tail := 0 }

/-- Modelled from the spec: `ring_buffer_put` of the absent `ring_buffer.h`. When advancing `head`
by one modulo `N` would equal `tail` the buffer is full: the result is `none` (BufferFull) and
nothing is changed. Otherwise the byte is stored at slot `head` and `head` becomes
`(head + 1) mod N`. -/
def ring_buffer_put {N : Nat} (rb : ring_buffer_t N) (c : Nat) : Option (ring_buffer_t N) :=
  if (rb.head + 1) % N = rb.tail then none
  else some { rb with
    buffer := fun i => if i = rb.head then c else rb.buffer i
    head := (rb.head + 1) % N }

/-- Modelled from the spec: `ring_buffer_get` of the absent `ring_buffer.h`. When `head = tail`
the buffer is empty: the result is `none` (BufferEmpty, the value `RING_BUFFER_EMPTY_ERROR` of
the caller) and nothing is changed. Otherwise the byte at slot `tail` is returned and `tail`
becomes `(tail + 1) mod N`. -/
def ring_buffer_get {N : Nat} (rb : ring_buffer_t N) : Option (Nat × ring_buffer_t N) :=
  if rb.head = rb.tail then none
  else some (rb.buffer rb.tail, { rb with tail := (rb.tail + 1) % N })

/-! ## Program state -/

/-- Everything the functions of `retarget_io.c` read or change. -/
@[ext]
structure World where
  /-- the global `serial_buffer` -/
  serial_buffer : ring_buffer_t SERIAL_BUFFER_SIZE
  /-- the `static uint8_t data` of the receive handler -/
  data : Nat
  /-- caller memory, one byte per address -/
  mem : Nat → Nat
  /-- addresses of the byte stores made through `buf`, oldest first -/
  stores : List Nat
  /-- bytes handed to `XMC_UART_CH_Transmit`, oldest first -/
  uart_tx : List Nat
  /-- value of `NVIC_GetPriorityGrouping()` -/
  priority_grouping : Nat
  /-- priority set for the receive interrupt, if any -/
  irq_priority : Option Nat
  /-- whether the receive interrupt line is enabled -/
  irq_enabled : Bool

/-- Value of the macro `DEBUG_UART_RECEIVE_EVENT_PRIORITY`. -/
def DEBUG_UART_RECEIVE_EVENT_PRIORITY : Nat := 63

/-- A byte store `*(uint8_t *)buf = v`. -/
def World.store (w : World) (buf v : Nat) : World :=
  { w with mem := fun a => if a = buf then v else w.mem a, stores := w.stores ++ [buf] }

/-- The function `retarget_io_init`. The CMSIS function `NVIC_EncodePriority` is a parameter. -/
def retarget_io_init (NVIC_EncodePriority : Nat → Nat → Nat → Nat) (w : World) : World :=
  { w with
    serial_buffer := { w.serial_buffer with head := 0, tail := 0 }
    irq_priority :=
      some (NVIC_EncodePriority w.priority_grouping DEBUG_UART_RECEIVE_EVENT_PRIORITY 0)
    irq_enabled := true }

/-- The function `_close`. -/
def _close (fd : Int) (w : World) : Int × World := (-1, w)

/-- The function `_fstat`; `buffer` is the pointer argument. -/
def _fstat (fd : Int) (buffer : Nat) (w : World) : Int × World := (-1, w)

/-- The function `_isatty`. -/
def _isatty (fd : Int) (w : World) : Int × World := (0, w)

/-- The function `_lseek`. -/
def _lseek (fd : Int) (offset : Int) (origin : Int) (w : World) : Int × World := (-1, w)

/-- The loop of `_write`; the first argument is the number `count - i` of iterations left. -/
def _write.loop : Nat → Nat → World → World
  | 0, _, w => w
  | n + 1, buf, w =>
    _write.loop n (buf + 1) { w with uart_tx := w.uart_tx ++ [w.mem buf] }

/-- The function `_write`: `buf` is an address, the result is `count` converted to `int`. -/
def _write (fd : Int) (buf : Nat) (count : Nat) (w : World) : Int × World :=
  (to_int count, _write.loop count buf w)

/-- The loop of `_read`; the first argument is the number `count - i` of iterations left.
`ring_buffer_get` stores the byte it returns through `buf`; `char_cnt++` is taken in `int`. -/
def _read.loop : Nat → Nat → Int → World → Int × World
  | 0, _, char_cnt, w => (char_cnt, w)
  | n + 1, buf, char_cnt, w =>
    match ring_buffer_get w.serial_buffer with
    | none => (char_cnt, w)
    | some (c, rb) =>
      let w := ({ w with serial_buffer := rb } : World).store buf c
      let char_cnt := to_int (char_cnt + 1)
      if w.mem buf = 0x0D then (char_cnt, w.store buf 0x0A)
      else _read.loop n (buf + 1) char_cnt w

/-- The function `_read`: `buf` is an address. -/
def _read (fd : Int) (buf : Nat) (count : Nat) (w : World) : Int × World :=
  _read.loop count buf 0 w

/-- The interrupt handler `CYBSP_DEBUG_UART_RECEIVE_EVENT_HANDLER`; `rx` is the value returned by
`XMC_UART_CH_GetReceivedData`. -/
def CYBSP_DEBUG_UART_RECEIVE_EVENT_HANDLER (rx : Nat) (w : World) : World :=
  let w := { w with data := to_uint8 rx }
  match ring_buffer_put w.serial_buffer w.data with
  | none => w
  | some rb => { w with serial_buffer := rb }

/-! ## Reading a state -/

/-- Valid state of a ring buffer: both indices are below the capacity. -/
def ring_buffer_t.valid {N : Nat} (rb : ring_buffer_t N) : Prop := rb.head < N ∧ rb.tail < N

instance {N : Nat} (rb : ring_buffer_t N) : Decidable rb.valid := by
  unfold ring_buffer_t.valid; infer_instance

/-- Number of unread bytes, `(head - tail) mod N`. -/
def ring_buffer_t.count {N : Nat} (rb : ring_buffer_t N) : Nat := (rb.head + N - rb.tail) % N

/-- The unread bytes in FIFO order: the slots from `tail` (inclusive) to `head` (exclusive),
modulo `N`. -/
def ring_buffer_t.unread {N : Nat} (rb : ring_buffer_t N) : List Nat :=
  (List.range rb.count).map (fun i => rb.buffer ((rb.tail + i) % N))

/-- The ring buffer with `tail` advanced by `r` slots. -/
def ring_buffer_t.advance {N : Nat} (rb : ring_buffer_t N) (r : Nat) : ring_buffer_t N :=
  { rb with tail := (rb.tail + r) % N }

/-- The ring buffer with the byte `c` stored at slot `head` and `head` advanced by one slot. -/
def ring_buffer_t.push {N : Nat} (rb : ring_buffer_t N) (c : Nat) : ring_buffer_t N :=
  { rb with buffer := fun i => if i = rb.head then c else rb.buffer i
            head := (rb.head + 1) % N }

/-- The bytes a read of at most `n` bytes delivers from the unread bytes `q`: bytes are taken
from the front until `n` are taken, `q` is used up or a 0x0D was taken, which is delivered as
0x0A. -/
def delivered : Nat → List Nat → List Nat
  | 0, _ => []
  | _ + 1, [] => []
  | n + 1, c :: q => if c = 0x0D then [0x0A] else c :: delivered n q

/-- The addresses stored to by such a read into `buf`, in program order. -/
def store_trace : Nat → Nat → List Nat → List Nat
  | 0, _, _ => []
  | _ + 1, _, [] => []
  | n + 1, buf, c :: q => if c = 0x0D then [buf, buf] else buf :: store_trace n (buf + 1) q

/-- The bytes of caller memory at the addresses `buf .. buf + n - 1`. -/
def World.bytes (w : World) (buf n : Nat) : List Nat :=
  (List.range n).map (fun i => w.mem (buf + i))

/-- The receive handler run once for each value of `rxs`, in order. -/
def receive_all (rxs : List Nat) (w : World) : World :=
  rxs.foldl (fun w rx => CYBSP_DEBUG_UART_RECEIVE_EVENT_HANDLER rx w) w

/-- A state whose ring buffer has the given slots and indices; nothing stored or sent so far. -/
def World.sample (slots : Nat → Nat) (head tail : Nat) : World :=
  { serial_buffer := { buffer := slots, head := head, tail := tail }
    data := 0
    mem := fun _ => 0
    stores := []
    uart_tx := []
    priority_grouping := 0
    irq_priority := none
    irq_enabled := false }

/-- The bytes `q` laid out from slot `tail` on, wrapping at slot 127; other slots hold 0. -/
def slots_of (tail : Nat) (q : List Nat) : Nat → Nat :=
  fun i => q.getD ((i + SERIAL_BUFFER_SIZE - tail) % SERIAL_BUFFER_SIZE) 0

/-- One call from outside: `retarget_io_init`, the receive handler with the received value, or
`_read` with its three arguments. -/
inductive Op where
  | init : Op
  | receive (rx : Nat) : Op
  | read (fd : Int) (buf count : Nat) : Op

/-- The state after one call. -/
def Op.run (NVIC_EncodePriority : Nat → Nat → Nat → Nat) : Op → World → World
  | Op.init, w => retarget_io_init NVIC_EncodePriority w
  | Op.receive rx, w => CYBSP_DEBUG_UART_RECEIVE_EVENT_HANDLER rx w
  | Op.read fd buf count, w => (_read fd buf count w).2

/-- The state after a sequence of calls, the first of the list first. -/
def run_all (NVIC_EncodePriority : Nat → Nat → Nat → Nat) (ops : List Op) (w : World) : World :=
  ops.foldl (fun w op => op.run NVIC_EncodePriority w) w

/-! ## Index arithmetic -/

theorem mod_two_range {N a : Nat} (h : a < 2 * N) :
    a % N = if a < N then a else a - N := by
  split
  · exact Nat.mod_eq_of_lt (by assumption)
  · rw [Nat.mod_eq_sub_mod (by omega)]
    exact Nat.mod_eq_of_lt (by omega)

theorem ring_buffer_t.count_eq {N : Nat} (rb : ring_buffer_t N) (hv : rb.valid) :
    rb.count = if rb.tail ≤ rb.head then rb.head - rb.tail else rb.head + N - rb.tail := by
  obtain ⟨hh, ht⟩ := hv
  unfold ring_buffer_t.count
  rw [mod_two_range (by omega)]
  split_ifs <;> omega

theorem ring_buffer_t.count_lt {N : Nat} (rb : ring_buffer_t N) (hv : rb.valid) :
    rb.count < N := by
  have := rb.count_eq hv
  obtain ⟨hh, ht⟩ := hv
  split_ifs at this <;> omega

theorem ring_buffer_t.unread_length {N : Nat} (rb : ring_buffer_t N) :
    rb.unread.length = rb.count := by
  simp [ring_buffer_t.unread]

theorem ring_buffer_t.unread_getElem? {N : Nat} (rb : ring_buffer_t N) (i : Nat)
    (hi : i < rb.count) : rb.unread[i]? = some (rb.buffer ((rb.tail + i) % N)) := by
  simp [ring_buffer_t.unread, List.getElem?_range hi]

/-- The slot of the i-th unread byte. -/
theorem slot_eq {N t i : Nat} (ht : t < N) (hi : i < N) :
    (t + i) % N = if t + i < N then t + i else t + i - N :=
  mod_two_range (by omega)

/-! ## One `ring_buffer_get` on the unread bytes -/

theorem ring_buffer_t.advance_valid {N : Nat} (rb : ring_buffer_t N) (r : Nat) (hv : rb.valid) :
    (rb.advance r).valid :=
  ⟨hv.1, Nat.mod_lt _ (by have := hv.1; omega)⟩

theorem ring_buffer_t.advance_zero {N : Nat} (rb : ring_buffer_t N) (hv : rb.valid) :
    rb.advance 0 = rb := by
  ext <;> simp [ring_buffer_t.advance, Nat.mod_eq_of_lt hv.2]

theorem ring_buffer_t.advance_advance {N : Nat} (rb : ring_buffer_t N) (r s : Nat) :
    (rb.advance r).advance s = rb.advance (r + s) := by
  ext <;> simp [ring_buffer_t.advance, Nat.add_assoc]

theorem ring_buffer_t.advance_count {N : Nat} (rb : ring_buffer_t N) (r : Nat) (hv : rb.valid)
    (hr : r ≤ rb.count) : (rb.advance r).count = rb.count - r := by
  have hc := rb.count_lt hv
  rw [(rb.advance r).count_eq (rb.advance_valid r hv), rb.count_eq hv] at *
  obtain ⟨hh, ht⟩ := hv
  simp only [ring_buffer_t.advance]
  rw [slot_eq ht (by omega)]
  split_ifs at * <;> omega

theorem ring_buffer_t.advance_unread {N : Nat} (rb : ring_buffer_t N) (r : Nat) (hv : rb.valid)
    (hr : r ≤ rb.count) : (rb.advance r).unread = rb.unread.drop r := by
  have hc := rb.count_lt hv
  have hcnt := rb.advance_count r hv hr
  apply List.ext_getElem?
  intro i
  by_cases hi : i < rb.count - r
  · rw [(rb.advance r).unread_getElem? i (by omega), List.getElem?_drop,
      rb.unread_getElem? (r + i) (by omega)]
    simp [ring_buffer_t.advance, Nat.add_assoc]
  · rw [List.getElem?_eq_none (by rw [ring_buffer_t.unread_length]; omega),
      List.getElem?_eq_none (by rw [List.length_drop, ring_buffer_t.unread_length]; omega)]

theorem ring_buffer_t.count_eq_zero_iff {N : Nat} (rb : ring_buffer_t N) (hv : rb.valid) :
    rb.count = 0 ↔ rb.head = rb.tail := by
  rw [rb.count_eq hv]
  obtain ⟨hh, ht⟩ := hv
  split_ifs <;> omega

theorem ring_buffer_get_empty {N : Nat} (rb : ring_buffer_t N) (hv : rb.valid)
    (h : rb.unread = []) : ring_buffer_get rb = none := by
  have h0 : rb.count = 0 := by rw [← rb.unread_length, h]; rfl
  simp [ring_buffer_get, (rb.count_eq_zero_iff hv).1 h0]

theorem ring_buffer_get_cons {N : Nat} (rb : ring_buffer_t N) (hv : rb.valid) (c : Nat)
    (q : List Nat) (h : rb.unread = c :: q) : ring_buffer_get rb = some (c, rb.advance 1) := by
  have h0 : rb.count ≠ 0 := by rw [← rb.unread_length, h]; simp
  have hne : rb.head ≠ rb.tail := fun e => h0 ((rb.count_eq_zero_iff hv).2 e)
  have hc : rb.unread[0]? = some c := by rw [h]; simp
  rw [rb.unread_getElem? 0 (by omega)] at hc
  simp only [Nat.add_zero, Nat.mod_eq_of_lt hv.2, Option.some.injEq] at hc
  simp [ring_buffer_get, hne, hc, ring_buffer_t.advance]

/-! ## One `ring_buffer_put` on the unread bytes -/

theorem ring_buffer_t.full_iff {N : Nat} (rb : ring_buffer_t N) (hv : rb.valid) :
    (rb.head + 1) % N = rb.tail ↔ rb.count + 1 = N := by
  rw [rb.count_eq hv]
  obtain ⟨hh, ht⟩ := hv
  rw [mod_two_range (show rb.head + 1 < 2 * N by omega)]
  split_ifs <;> omega

theorem ring_buffer_t.push_valid {N : Nat} (rb : ring_buffer_t N) (hv : rb.valid) (c : Nat) :
    (rb.push c).valid :=
  ⟨Nat.mod_lt _ (by have := hv.1; omega), hv.2⟩

theorem ring_buffer_t.push_count {N : Nat} (rb : ring_buffer_t N) (hv : rb.valid) (c : Nat)
    (h : rb.count + 1 < N) : (rb.push c).count = rb.count + 1 := by
  rw [ring_buffer_t.count_eq _ (rb.push_valid hv c)]
  rw [rb.count_eq hv] at h ⊢
  obtain ⟨hh, ht⟩ := hv
  simp only [ring_buffer_t.push]
  rw [mod_two_range (show rb.head + 1 < 2 * N by omega)]
  split_ifs at * <;> omega

theorem ring_buffer_t.push_unread {N : Nat} (rb : ring_buffer_t N) (hv : rb.valid) (c : Nat)
    (h : rb.count + 1 < N) : (rb.push c).unread = rb.unread ++ [c] := by
  have hc2 := rb.push_count hv c h
  have e := rb.count_eq hv
  obtain ⟨hh, ht⟩ := hv
  apply List.ext_getElem?
  intro i
  rcases Nat.lt_trichotomy i rb.count with hi | hi | hi
  · rw [ring_buffer_t.unread_getElem? _ i (by omega),
      List.getElem?_append_left (by rw [rb.unread_length]; exact hi),
      rb.unread_getElem? i hi]
    simp only [ring_buffer_t.push, Option.some.injEq]
    rw [if_neg]
    rw [slot_eq ht (by omega)]
    split_ifs at * <;> omega
  · subst hi
    rw [ring_buffer_t.unread_getElem? _ _ (by omega),
      List.getElem?_append_right (by rw [rb.unread_length]), rb.unread_length]
    simp only [ring_buffer_t.push, Nat.sub_self, List.getElem?_cons_zero, Option.some.injEq]
    rw [if_pos]
    rw [slot_eq ht (by omega)]
    split_ifs at * <;> omega
  · rw [List.getElem?_eq_none (by rw [ring_buffer_t.unread_length]; omega),
      List.getElem?_eq_none (by
        rw [List.length_append, ring_buffer_t.unread_length]; simp; omega)]

/-- With room left `ring_buffer_put` succeeds. -/
theorem ring_buffer_put_room {N : Nat} (rb : ring_buffer_t N) (hv : rb.valid) (c : Nat)
    (h : rb.count + 1 < N) : ring_buffer_put rb c = some (rb.push c) := by
  have hnf : ¬ (rb.head + 1) % N = rb.tail := by rw [rb.full_iff hv]; omega
  simp only [ring_buffer_put, hnf, if_false, ring_buffer_t.push]

/-- On a full buffer `ring_buffer_put` fails. -/
theorem ring_buffer_put_full {N : Nat} (rb : ring_buffer_t N) (hv : rb.valid) (c : Nat)
    (h : rb.count + 1 = N) : ring_buffer_put rb c = none := by
  simp only [ring_buffer_put, (rb.full_iff hv).2 h, if_true]

/-! ## The read loop -/

theorem delivered_length_le (n : Nat) (q : List Nat) :
    (delivered n q).length ≤ n ∧ (delivered n q).length ≤ q.length := by
  induction n generalizing q with
  | zero => simp [delivered]
  | succ n ih =>
    cases q with
    | nil => simp [delivered]
    | cons c q =>
      simp only [delivered]
      split
      · simp
      · have := ih q
        simp only [List.length_cons]
        omega

theorem to_int_small (x : Int) (h0 : 0 ≤ x) (h1 : x ≤ INT_MAX) : to_int x = x := by
  unfold to_int
  unfold INT_MAX at h1
  omega

/-- What the loop of `_read` computes on a valid buffer. -/
theorem _read_loop_eq (n : Nat) : ∀ (buf : Nat) (char_cnt : Int) (w : World),
    w.serial_buffer.valid → 0 ≤ char_cnt →
    char_cnt + w.serial_buffer.unread.length ≤ INT_MAX →
    _read.loop n buf char_cnt w =
      (char_cnt + (delivered n w.serial_buffer.unread).length,
       { w with
         serial_buffer :=
           w.serial_buffer.advance (delivered n w.serial_buffer.unread).length
         mem := fun a =>
           if buf ≤ a ∧ a < buf + (delivered n w.serial_buffer.unread).length then
             (delivered n w.serial_buffer.unread).getD (a - buf) 0
           else w.mem a
         stores := w.stores ++ store_trace n buf w.serial_buffer.unread }) := by
  induction n with
  | zero =>
    intro buf cc w hv h0 h1
    simp only [_read.loop, delivered, store_trace, ring_buffer_t.advance_zero _ hv,
      List.length_nil, Nat.cast_zero, add_zero, List.append_nil]
    refine Prod.ext rfl ?_
    apply World.ext <;> try rfl
    funext a
    simp only [Nat.add_zero]
    rw [if_neg (by omega)]
  | succ n ih =>
    intro buf cc w hv h0 h1
    rcases hq : w.serial_buffer.unread with _ | ⟨c, q⟩
    · simp only [_read.loop, ring_buffer_get_empty _ hv hq, delivered, store_trace,
        ring_buffer_t.advance_zero _ hv, List.length_nil, Nat.cast_zero, add_zero,
        List.append_nil]
      refine Prod.ext rfl ?_
      apply World.ext <;> try rfl
      funext a
      simp only [Nat.add_zero]
      rw [if_neg (by omega)]
    · have hget := ring_buffer_get_cons _ hv c q hq
      have hcnt : 1 ≤ w.serial_buffer.count := by
        rw [← ring_buffer_t.unread_length, hq]; simp
      have hq1 : (w.serial_buffer.advance 1).unread = q := by
        rw [ring_buffer_t.advance_unread _ 1 hv hcnt, hq]; rfl
      rw [hq] at h1
      simp only [List.length_cons, Nat.cast_add, Nat.cast_one] at h1
      have hcc : to_int (cc + 1) = cc + 1 := to_int_small _ (by omega) (by omega)
      simp only [_read.loop, hget, hcc, World.store, if_true]
      by_cases hc : c = 0x0D
      · subst hc
        simp only [if_true, delivered, store_trace, List.length_singleton, Nat.cast_one]
        refine Prod.ext rfl ?_
        apply World.ext <;> try rfl
        · funext a
          by_cases ha : a = buf
          · subst ha; simp
          · simp only [ha, if_false]
            rw [if_neg (by omega)]
        · simp
      · simp only [hc, if_false, delivered, store_trace, List.length_cons]
        rw [ih]
        · simp only [hq1]
          refine Prod.ext (by push_cast; ring) ?_
          apply World.ext <;> try rfl
          · simp only [ring_buffer_t.advance_advance, Nat.add_comm 1]
          · funext a
            simp only
            by_cases ha : a = buf
            · subst ha
              rw [if_neg (by omega), if_pos (by omega)]
              simp
            · by_cases hlt : buf + 1 ≤ a ∧ a < buf + 1 + (delivered n q).length
              · rw [if_pos hlt, if_pos (by omega)]
                obtain ⟨k, rfl⟩ : ∃ k, a = buf + 1 + k := ⟨a - (buf + 1), by omega⟩
                have e1 : buf + 1 + k - (buf + 1) = k := by omega
                have e2 : buf + 1 + k - buf = k + 1 := by omega
                rw [e1, e2]
                simp
              · rw [if_neg hlt, if_neg ha, if_neg (by omega)]
          · simp
        · exact ring_buffer_t.advance_valid _ 1 hv
        · omega
        · simp only [hq1]; omega

/-- What `_read` computes on a valid buffer. -/
theorem _read_eq (fd : Int) (buf n : Nat) (w : World) (hv : w.serial_buffer.valid) :
    _read fd buf n w =
      (((delivered n w.serial_buffer.unread).length : Int),
       { w with
         serial_buffer :=
           w.serial_buffer.advance (delivered n w.serial_buffer.unread).length
         mem := fun a =>
           if buf ≤ a ∧ a < buf + (delivered n w.serial_buffer.unread).length then
             (delivered n w.serial_buffer.unread).getD (a - buf) 0
           else w.mem a
         stores := w.stores ++ store_trace n buf w.serial_buffer.unread }) := by
  have hc := w.serial_buffer.count_lt hv
  have h1 : (0 : Int) + w.serial_buffer.unread.length ≤ INT_MAX := by
    rw [ring_buffer_t.unread_length]
    unfold INT_MAX
    unfold SERIAL_BUFFER_SIZE at hc
    omega
  unfold _read
  rw [_read_loop_eq n buf 0 w hv (le_refl 0) h1, zero_add]

/-! ## Facts about the delivered bytes -/

theorem delivered_terminator (k : Nat) : ∀ (n : Nat) (q : List Nat),
    q[k]? = some 0x0D → (∀ j, j < k → q[j]? ≠ some 0x0D) → k < n →
    delivered n q = q.take k ++ [0x0A] := by
  induction k with
  | zero =>
    intro n q hk _ hn
    obtain ⟨n, rfl⟩ : ∃ m, n = m + 1 := ⟨n - 1, by omega⟩
    cases q with
    | nil => simp at hk
    | cons c q =>
      simp only [List.getElem?_cons_zero, Option.some.injEq] at hk
      simp [delivered, hk]
  | succ k ih =>
    intro n q hk hfirst hn
    obtain ⟨n, rfl⟩ : ∃ m, n = m + 1 := ⟨n - 1, by omega⟩
    cases q with
    | nil => simp at hk
    | cons c q =>
      have hc : c ≠ 0x0D := by
        have := hfirst 0 (by omega)
        simpa using this
      simp only [List.getElem?_cons_succ] at hk
      have hf : ∀ j, j < k → q[j]? ≠ some 0x0D := by
        intro j hj
        have := hfirst (j + 1) (by omega)
        simpa using this
      simp [delivered, hc, ih n q hk hf (by omega)]

theorem delivered_no_terminator (n : Nat) : ∀ (q : List Nat),
    (∀ j, j < min n q.length → q[j]? ≠ some 0x0D) → delivered n q = q.take n := by
  induction n with
  | zero => intro q _; simp [delivered]
  | succ n ih =>
    intro q h
    cases q with
    | nil => simp [delivered]
    | cons c q =>
      have hc : c ≠ 0x0D := by
        have := h 0 (by simp)
        simpa using this
      have hf : ∀ j, j < min n q.length → q[j]? ≠ some 0x0D := by
        intro j hj
        have := h (j + 1) (by simp only [List.length_cons]; omega)
        simpa using this
      simp [delivered, hc, ih q hf]

theorem delivered_ne_terminator (n : Nat) : ∀ (q : List Nat) (b : Nat),
    b ∈ delivered n q → b ≠ 0x0D := by
  induction n with
  | zero => intro q b hb; simp [delivered] at hb
  | succ n ih =>
    intro q b hb
    cases q with
    | nil => simp [delivered] at hb
    | cons c q =>
      simp only [delivered] at hb
      split at hb
      · simp at hb; omega
      · rcases List.mem_cons.1 hb with rfl | hb
        · assumption
        · exact ih q b hb

theorem store_trace_mem (n : Nat) : ∀ (buf : Nat) (q : List Nat) (a : Nat),
    a ∈ store_trace n buf q ↔ buf ≤ a ∧ a < buf + (delivered n q).length := by
  induction n with
  | zero => intro buf q a; simp [store_trace, delivered]
  | succ n ih =>
    intro buf q a
    cases q with
    | nil => simp [store_trace, delivered]
    | cons c q =>
      simp only [store_trace, delivered]
      split
      · simp; omega
      · simp only [List.mem_cons, ih, List.length_cons]; omega

/-- The bytes a read leaves at `buf` are the delivered ones. -/
theorem bytes_of_overlay (mem : Nat → Nat) (buf : Nat) (d : List Nat) :
    (List.range d.length).map
      (fun i => (fun a => if buf ≤ a ∧ a < buf + d.length then d.getD (a - buf) 0 else mem a)
        (buf + i)) = d := by
  apply List.ext_getElem
  · simp
  · intro i h1 h2
    simp only [List.getElem_map, List.getElem_range]
    rw [if_pos (by omega)]
    simp [h2]

/-- On an empty valid buffer `_read` returns 0 and changes nothing. -/
theorem _read_empty (fd : Int) (buf n : Nat) (w : World) (hv : w.serial_buffer.valid)
    (he : w.serial_buffer.unread = []) : _read fd buf n w = (0, w) := by
  rw [_read_eq fd buf n w hv]
  have hd : delivered n ([] : List Nat) = [] := by cases n <;> rfl
  have hs : store_trace n buf ([] : List Nat) = [] := by cases n <;> rfl
  simp only [he, hd, hs, List.length_nil, Nat.cast_zero, ring_buffer_t.advance_zero _ hv,
    List.append_nil]
  refine Prod.ext rfl ?_
  apply World.ext <;> try rfl
  funext a
  simp only [Nat.add_zero]
  rw [if_neg (by omega)]

/-! ## The receive handler -/

theorem handler_room (rx : Nat) (w : World) (hv : w.serial_buffer.valid)
    (h : w.serial_buffer.unread.length < 127) :
    CYBSP_DEBUG_UART_RECEIVE_EVENT_HANDLER rx w =
      { w with data := to_uint8 rx, serial_buffer := w.serial_buffer.push (to_uint8 rx) } := by
  rw [ring_buffer_t.unread_length] at h
  have hp := ring_buffer_put_room w.serial_buffer hv (to_uint8 rx)
    (by unfold SERIAL_BUFFER_SIZE; omega)
  simp only [CYBSP_DEBUG_UART_RECEIVE_EVENT_HANDLER, hp]

theorem handler_full (rx : Nat) (w : World) (hv : w.serial_buffer.valid)
    (h : w.serial_buffer.unread.length = 127) :
    CYBSP_DEBUG_UART_RECEIVE_EVENT_HANDLER rx w = { w with data := to_uint8 rx } := by
  rw [ring_buffer_t.unread_length] at h
  have hp := ring_buffer_put_full w.serial_buffer hv (to_uint8 rx)
    (by unfold SERIAL_BUFFER_SIZE; omega)
  simp only [CYBSP_DEBUG_UART_RECEIVE_EVENT_HANDLER, hp]

theorem handler_valid (rx : Nat) (w : World) (hv : w.serial_buffer.valid) :
    (CYBSP_DEBUG_UART_RECEIVE_EVENT_HANDLER rx w).serial_buffer.valid := by
  have hc := w.serial_buffer.count_lt hv
  rw [← ring_buffer_t.unread_length] at hc
  unfold SERIAL_BUFFER_SIZE at hc
  by_cases h : w.serial_buffer.unread.length < 127
  · rw [handler_room rx w hv h]
    exact ring_buffer_t.push_valid _ hv _
  · rw [handler_full rx w hv (by omega)]
    exact hv

theorem handler_unread (rx : Nat) (w : World) (hv : w.serial_buffer.valid)
    (h : w.serial_buffer.unread.length < 127) :
    (CYBSP_DEBUG_UART_RECEIVE_EVENT_HANDLER rx w).serial_buffer.unread
      = w.serial_buffer.unread ++ [to_uint8 rx] := by
  rw [handler_room rx w hv h]
  rw [ring_buffer_t.unread_length] at h
  exact ring_buffer_t.push_unread _ hv _ (by unfold SERIAL_BUFFER_SIZE; omega)

theorem to_uint8_byte (b : Nat) (hb : b < 256) : to_uint8 b = b :=
  Nat.mod_eq_of_lt hb

theorem map_to_uint8_bytes (bs : List Nat) (hb : ∀ b ∈ bs, b < 256) : bs.map to_uint8 = bs := by
  induction bs with
  | nil => rfl
  | cons b bs ih =>
    simp only [List.map_cons, to_uint8_byte b (hb b (List.mem_cons_self _ _)),
      ih (fun x hx => hb x (List.mem_cons_of_mem _ hx))]

/-- The handler run for each of `rxs` while there is room appends them to the unread bytes. -/
theorem receive_all_unread (rxs : List Nat) : ∀ (w : World), w.serial_buffer.valid →
    w.serial_buffer.unread.length + rxs.length ≤ 127 →
    (receive_all rxs w).serial_buffer.valid ∧
    (receive_all rxs w).serial_buffer.unread = w.serial_buffer.unread ++ rxs.map to_uint8 := by
  induction rxs with
  | nil => intro w hv _; simpa [receive_all] using hv
  | cons rx rxs ih =>
    intro w hv hl
    simp only [List.length_cons] at hl
    have hu := handler_unread rx w hv (by omega)
    have h := ih (CYBSP_DEBUG_UART_RECEIVE_EVENT_HANDLER rx w) (handler_valid rx w hv)
      (by rw [hu]; simp; omega)
    simp only [receive_all, List.foldl_cons] at h ⊢
    refine ⟨h.1, ?_⟩
    rw [h.2, hu]
    simp

/-! ## Claims about `_read` -/

/-- C1: on a valid buffer whose first 0x0D among the unread bytes is at index `k < n`, `_read`
returns `k + 1`, the output holds the `k` bytes before it unchanged followed by one 0x0A, no
address outside `buf .. buf + k` is stored to or changed, and the unread bytes left are exactly
those after the 0x0D, in order. -/
theorem read_terminator (fd : Int) (buf n k : Nat) (w : World)
    (hv : w.serial_buffer.valid)
    (hk : w.serial_buffer.unread[k]? = some 0x0D)
    (hfirst : ∀ j, j < k → w.serial_buffer.unread[j]? ≠ some 0x0D)
    (hn : k < n) :
    (_read fd buf n w).1 = ((k + 1 : Nat) : Int) ∧
    (_read fd buf n w).2.bytes buf (k + 1) = w.serial_buffer.unread.take k ++ [0x0A] ∧
    (∀ a, a < buf ∨ buf + k < a → (_read fd buf n w).2.mem a = w.mem a) ∧
    (∃ tr, (_read fd buf n w).2.stores = w.stores ++ tr ∧ ∀ a ∈ tr, buf ≤ a ∧ a ≤ buf + k) ∧
    (_read fd buf n w).2.serial_buffer.valid ∧
    (_read fd buf n w).2.serial_buffer.unread = w.serial_buffer.unread.drop (k + 1) := by
  have hd := delivered_terminator k n _ hk hfirst hn
  have hkl : k < w.serial_buffer.unread.length := by
    by_contra hcon
    rw [List.getElem?_eq_none (by omega)] at hk
    simp at hk
  have hl : (delivered n w.serial_buffer.unread).length = k + 1 := by
    rw [hd]; simp; omega
  rw [_read_eq fd buf n w hv]
  refine ⟨by simp only [hl], ?_, ?_, ⟨_, rfl, ?_⟩, ?_, ?_⟩
  · simp only [World.bytes]
    rw [← hd, ← hl]
    exact bytes_of_overlay _ _ _
  · intro a ha
    simp only
    rw [if_neg (by omega)]
  · intro a ha
    have := (store_trace_mem n buf _ a).1 ha
    omega
  · exact ring_buffer_t.advance_valid _ _ hv
  · simp only [hl]
    exact ring_buffer_t.advance_unread _ _ hv (by rw [← ring_buffer_t.unread_length]; omega)

/-- Witness of C1 on a wrapped buffer: `tail = 126`, `head = 2`, unread bytes
`[0x41, 0x42, 0x0D, 0x43]`, `n = 10`, so `k = 2`. -/
theorem read_terminator_witness :
    (World.sample (slots_of 126 [0x41, 0x42, 0x0D, 0x43]) 2 126).serial_buffer.unread
      = [0x41, 0x42, 0x0D, 0x43] ∧
    (_read 0 1000 10 (World.sample (slots_of 126 [0x41, 0x42, 0x0D, 0x43]) 2 126)).1 = 3 ∧
    (_read 0 1000 10 (World.sample (slots_of 126 [0x41, 0x42, 0x0D, 0x43]) 2 126)).2.bytes 1000 3
      = [0x41, 0x42, 0x0A] ∧
    (_read 0 1000 10
      (World.sample (slots_of 126 [0x41, 0x42, 0x0D, 0x43]) 2 126)).2.serial_buffer.unread
      = [0x43] := by
  have h := read_terminator 0 1000 10 2
    (World.sample (slots_of 126 [0x41, 0x42, 0x0D, 0x43]) 2 126)
    (by decide) (by decide) (by decide) (by decide)
  exact ⟨by decide, h.1, h.2.1, h.2.2.2.2.2⟩

/-- C2: on a valid buffer with `m` unread bytes of which none of the first `min n m` is 0x0D,
`_read` returns `min n m`, the output holds exactly the first `min n m` unread bytes unchanged
and in order (0x0A included), no other address is stored to or changed, and the unread bytes
left are the rest, in order. On an empty buffer `_read` returns 0 and leaves the whole state,
head and tail included, as it is. -/
theorem read_no_terminator (fd : Int) (buf n : Nat) (w : World)
    (hv : w.serial_buffer.valid)
    (hno : ∀ j, j < min n w.serial_buffer.unread.length →
      w.serial_buffer.unread[j]? ≠ some 0x0D) :
    (_read fd buf n w).1 = ((min n w.serial_buffer.unread.length : Nat) : Int) ∧
    (_read fd buf n w).2.bytes buf (min n w.serial_buffer.unread.length)
      = w.serial_buffer.unread.take (min n w.serial_buffer.unread.length) ∧
    (∀ a, a < buf ∨ buf + min n w.serial_buffer.unread.length ≤ a →
      (_read fd buf n w).2.mem a = w.mem a) ∧
    (∃ tr, (_read fd buf n w).2.stores = w.stores ++ tr ∧
      ∀ a ∈ tr, buf ≤ a ∧ a < buf + min n w.serial_buffer.unread.length) ∧
    (_read fd buf n w).2.serial_buffer.valid ∧
    (_read fd buf n w).2.serial_buffer.unread
      = w.serial_buffer.unread.drop (min n w.serial_buffer.unread.length) ∧
    (w.serial_buffer.unread = [] → _read fd buf n w = (0, w)) := by
  have hd := delivered_no_terminator n _ hno
  have hl : (delivered n w.serial_buffer.unread).length = min n w.serial_buffer.unread.length := by
    rw [hd]; simp
  have ht : w.serial_buffer.unread.take (min n w.serial_buffer.unread.length)
      = w.serial_buffer.unread.take n := by
    rw [List.take_eq_take]; simp
  rw [_read_eq fd buf n w hv]
  refine ⟨by simp only [hl], ?_, ?_, ⟨_, rfl, ?_⟩, ?_, ?_, ?_⟩
  · simp only [World.bytes]
    rw [ht, ← hd, ← hl]
    exact bytes_of_overlay _ _ _
  · intro a ha
    simp only
    rw [if_neg (by omega)]
  · intro a ha
    have := (store_trace_mem n buf _ a).1 ha
    omega
  · exact ring_buffer_t.advance_valid _ _ hv
  · simp only [hl]
    exact ring_buffer_t.advance_unread _ _ hv (by rw [← ring_buffer_t.unread_length]; omega)
  · intro he
    cases n with
    | zero =>
      simp only [delivered, store_trace, List.length_nil, Nat.cast_zero,
        ring_buffer_t.advance_zero _ hv, List.append_nil]
      refine Prod.ext rfl ?_
      apply World.ext <;> try rfl
      funext a
      simp only [Nat.add_zero]
      rw [if_neg (by omega)]
    | succ n =>
      simp only [he, delivered, store_trace, List.length_nil, Nat.cast_zero,
        ring_buffer_t.advance_zero _ hv, List.append_nil]
      refine Prod.ext rfl ?_
      apply World.ext <;> try rfl
      funext a
      simp only [Nat.add_zero]
      rw [if_neg (by omega)]

/-- Witness of C2: unread bytes `[0x41, 0x42, 0x43, 0x44, 0x45]` at `tail = 125`, `head = 2`
and `n = 3`; and an empty buffer at `head = tail = 77` with `n = 4`. -/
theorem read_no_terminator_witness :
    (World.sample (slots_of 125 [0x41, 0x42, 0x43, 0x44, 0x45]) 2 125).serial_buffer.unread
      = [0x41, 0x42, 0x43, 0x44, 0x45] ∧
    (_read 0 1000 3 (World.sample (slots_of 125 [0x41, 0x42, 0x43, 0x44, 0x45]) 2 125)).1 = 3 ∧
    (_read 0 1000 3
      (World.sample (slots_of 125 [0x41, 0x42, 0x43, 0x44, 0x45]) 2 125)).2.bytes 1000 3
      = [0x41, 0x42, 0x43] ∧
    (_read 0 1000 3
      (World.sample (slots_of 125 [0x41, 0x42, 0x43, 0x44, 0x45]) 2 125)).2.serial_buffer.unread
      = [0x44, 0x45] ∧
    _read 0 1000 4 (World.sample (slots_of 77 []) 77 77)
      = (0, World.sample (slots_of 77 []) 77 77) := by
  have h := read_no_terminator 0 1000 3
    (World.sample (slots_of 125 [0x41, 0x42, 0x43, 0x44, 0x45]) 2 125) (by decide) (by decide)
  have h0 := read_no_terminator 0 1000 4 (World.sample (slots_of 77 []) 77 77)
    (by decide) (by decide)
  exact ⟨by decide, h.1, h.2.1, h.2.2.2.2.2.1, h0.2.2.2.2.2.2 (by decide)⟩

/-- C10: on a valid buffer `_read` returns some `r` with `0 ≤ r ≤ min count 127`, whatever
`count` is; `r` is the number of bytes removed from the buffer, so the `int` counter did not
wrap; exactly the addresses `buf .. buf + r - 1` are stored to, all below `buf + count`, every
other address keeps its byte, and none of the `r` output bytes is 0x0D. -/
theorem read_bounded (fd : Int) (buf count : Nat) (w : World)
    (hv : w.serial_buffer.valid) :
    ∃ r : Nat, (_read fd buf count w).1 = (r : Int) ∧
      r ≤ min count 127 ∧ (r : Int) ≤ INT_MAX ∧
      (_read fd buf count w).2.serial_buffer.unread = w.serial_buffer.unread.drop r ∧
      (_read fd buf count w).2.serial_buffer.unread.length + r
        = w.serial_buffer.unread.length ∧
      (∃ tr, (_read fd buf count w).2.stores = w.stores ++ tr ∧
        ∀ a, a ∈ tr ↔ buf ≤ a ∧ a < buf + r) ∧
      (∀ a, a < buf ∨ buf + r ≤ a → (_read fd buf count w).2.mem a = w.mem a) ∧
      buf + r ≤ buf + count ∧
      (∀ j, j < r → (_read fd buf count w).2.mem (buf + j) ≠ 0x0D) := by
  have hle := delivered_length_le count w.serial_buffer.unread
  have hc := w.serial_buffer.count_lt hv
  rw [ring_buffer_t.unread_length] at hle
  unfold SERIAL_BUFFER_SIZE at hc
  have hdrop := ring_buffer_t.advance_unread _ _ hv hle.2
  rw [_read_eq fd buf count w hv]
  refine ⟨(delivered count w.serial_buffer.unread).length, rfl, by omega,
    by unfold INT_MAX; omega, hdrop, ?_, ⟨_, rfl, ?_⟩, ?_, by omega, ?_⟩
  · simp only [hdrop, List.length_drop, ring_buffer_t.unread_length]
    omega
  · intro a
    exact store_trace_mem count buf _ a
  · intro a ha
    simp only
    rw [if_neg (by omega)]
  · intro j hj
    simp only
    rw [if_pos (by omega)]
    have e : buf + j - buf = j := by omega
    rw [e, List.getD_eq_getElem _ _ hj]
    exact delivered_ne_terminator count _ _ (List.getElem_mem _)

/-- Witness of C10: a full buffer (127 unread bytes, all 0x0D apart from the first) read with
the largest `size_t` count. -/
theorem read_bounded_witness :
    ∃ r : Nat, (_read 0 1000 SIZE_MAX (World.sample (fun i => if i = 5 then 0x41 else 0x0D) 4 5)).1
        = (r : Int) ∧ r ≤ min SIZE_MAX 127 :=
  (read_bounded 0 1000 SIZE_MAX (World.sample (fun i => if i = 5 then 0x41 else 0x0D) 4 5)
    (by decide)).imp fun _ h => ⟨h.1, h.2.1⟩

/-! ## Claims about the receive path -/

/-- C3: from an empty valid buffer (`head = tail = i`, any `i < 128`), the handler run for the
bytes `bs` (at most 127, none 0x0D) followed by one `_read` with `count ≥ bs.length` makes
`_read` return `bs.length` with output exactly `bs` in order, and the buffer is empty again. -/
theorem fifo_order (fd : Int) (buf count i : Nat) (bs : List Nat) (w : World)
    (hh : w.serial_buffer.head = i) (ht : w.serial_buffer.tail = i) (hi : i < 128)
    (hlen : bs.length ≤ 127) (hbyte : ∀ b ∈ bs, b < 256) (hcr : ∀ b ∈ bs, b ≠ 0x0D)
    (hcount : bs.length ≤ count) :
    (_read fd buf count (receive_all bs w)).1 = (bs.length : Int) ∧
    (_read fd buf count (receive_all bs w)).2.bytes buf bs.length = bs ∧
    (_read fd buf count (receive_all bs w)).2.serial_buffer.unread = [] ∧
    (_read fd buf count (receive_all bs w)).2.serial_buffer.head
      = (_read fd buf count (receive_all bs w)).2.serial_buffer.tail := by
  have hv : w.serial_buffer.valid := ⟨by rw [hh]; exact hi, by rw [ht]; exact hi⟩
  have he : w.serial_buffer.unread = [] := by
    have h0 := (w.serial_buffer.count_eq_zero_iff hv).2 (by rw [hh, ht])
    exact List.eq_nil_of_length_eq_zero (by rw [ring_buffer_t.unread_length, h0])
  obtain ⟨hv1, hu1⟩ := receive_all_unread bs w hv (by rw [he]; simpa using hlen)
  rw [he, List.nil_append, map_to_uint8_bytes bs hbyte] at hu1
  have hd : delivered count bs = bs := by
    rw [delivered_no_terminator count bs, List.take_of_length_le hcount]
    intro j hj hc
    exact hcr _ (List.getElem?_mem hc) rfl
  have hdrop := ring_buffer_t.advance_unread (receive_all bs w).serial_buffer bs.length hv1
    (by rw [← ring_buffer_t.unread_length, hu1])
  rw [hu1, List.drop_length] at hdrop
  rw [_read_eq fd buf count _ hv1]
  simp only [hu1, hd, World.bytes]
  refine ⟨trivial, bytes_of_overlay _ _ _, hdrop, ?_⟩
  have hv2 := ring_buffer_t.advance_valid (receive_all bs w).serial_buffer bs.length hv1
  refine (ring_buffer_t.count_eq_zero_iff _ hv2).1 ?_
  rw [← ring_buffer_t.unread_length, hdrop]
  rfl

/-- Witness of C3: the buffer empty at `head = tail = 126` and the bytes `[0x68, 0x69, 0x0A,
0x21]`, which wrap from slot 127 to slot 0. -/
theorem fifo_order_witness :
    (_read 0 1000 8 (receive_all [0x68, 0x69, 0x0A, 0x21]
      (World.sample (slots_of 126 []) 126 126))).1 = 4 ∧
    (_read 0 1000 8 (receive_all [0x68, 0x69, 0x0A, 0x21]
      (World.sample (slots_of 126 []) 126 126))).2.bytes 1000 4 = [0x68, 0x69, 0x0A, 0x21] ∧
    (_read 0 1000 8 (receive_all [0x68, 0x69, 0x0A, 0x21]
      (World.sample (slots_of 126 []) 126 126))).2.serial_buffer.head = 2 := by
  have h := fifo_order 0 1000 8 126 [0x68, 0x69, 0x0A, 0x21]
    (World.sample (slots_of 126 []) 126 126) rfl rfl (by decide) (by decide) (by decide)
    (by decide) (by decide)
  exact ⟨h.1, h.2.1, by decide⟩

/-- C4: on a valid buffer and for a received byte `b`, the handler appends `b` to the unread
bytes and keeps `tail` when fewer than 127 bytes are unread; when exactly 127 are unread, which
is when advancing `head` by one modulo 128 gives `tail`, it leaves `serial_buffer` (head, tail,
slots) as it is. Hence from an empty buffer at any index, of 128 bytes received the first 127
are kept and the 128th is dropped, and after `_read` took one byte the next byte is accepted. -/
theorem receive_overrun (b : Nat) (w : World) (hv : w.serial_buffer.valid) (hb : b < 256) :
    (w.serial_buffer.unread.length < 127 →
      (CYBSP_DEBUG_UART_RECEIVE_EVENT_HANDLER b w).serial_buffer.unread
        = w.serial_buffer.unread ++ [b] ∧
      (CYBSP_DEBUG_UART_RECEIVE_EVENT_HANDLER b w).serial_buffer.tail = w.serial_buffer.tail ∧
      (CYBSP_DEBUG_UART_RECEIVE_EVENT_HANDLER b w).serial_buffer.valid) ∧
    (w.serial_buffer.unread.length = 127 ↔
      (w.serial_buffer.head + 1) % 128 = w.serial_buffer.tail) ∧
    (w.serial_buffer.unread.length = 127 →
      (CYBSP_DEBUG_UART_RECEIVE_EVENT_HANDLER b w).serial_buffer = w.serial_buffer) ∧
    (∀ (bs : List Nat) (c : Nat) (fd : Int) (buf : Nat),
      w.serial_buffer.unread = [] → bs.length = 127 → (∀ x ∈ bs, x < 256) → c < 256 →
      (receive_all bs w).serial_buffer.unread = bs ∧
      (receive_all (bs ++ [b]) w).serial_buffer.unread = bs ∧
      (_read fd buf 1 (receive_all (bs ++ [b]) w)).1 = 1 ∧
      (_read fd buf 1 (receive_all (bs ++ [b]) w)).2.serial_buffer.unread = bs.tail ∧
      (CYBSP_DEBUG_UART_RECEIVE_EVENT_HANDLER c
        (_read fd buf 1 (receive_all (bs ++ [b]) w)).2).serial_buffer.unread
        = bs.tail ++ [c]) := by
  refine ⟨?_, ?_, ?_, ?_⟩
  · intro h
    refine ⟨?_, ?_, handler_valid b w hv⟩
    · rw [handler_unread b w hv h, to_uint8_byte b hb]
    · rw [handler_room b w hv h]; rfl
  · rw [ring_buffer_t.unread_length]
    have := w.serial_buffer.full_iff hv
    unfold SERIAL_BUFFER_SIZE at this
    rw [this]
    omega
  · intro h
    rw [handler_full b w hv h]
  · intro bs c fd buf he hl hbs hc
    obtain ⟨hv1, hu1⟩ := receive_all_unread bs w hv (by rw [he, hl]; simp)
    rw [he, List.nil_append, map_to_uint8_bytes bs hbs] at hu1
    have hfull : receive_all (bs ++ [b]) w
        = { receive_all bs w with data := to_uint8 b } := by
      have := handler_full b (receive_all bs w) hv1 (by rw [hu1, hl])
      simpa only [receive_all, List.foldl_append, List.foldl_cons, List.foldl_nil] using this
    have hv2 : (receive_all (bs ++ [b]) w).serial_buffer.valid := by rw [hfull]; exact hv1
    have hu2 : (receive_all (bs ++ [b]) w).serial_buffer.unread = bs := by rw [hfull]; exact hu1
    obtain ⟨x, xs, rfl⟩ : ∃ x xs, bs = x :: xs := by
      cases bs with
      | nil => simp at hl
      | cons x xs => exact ⟨x, xs, rfl⟩
    have hd : (delivered 1 (x :: xs)).length = 1 := by
      simp only [delivered]
      split <;> rfl
    have hdrop := ring_buffer_t.advance_unread (receive_all (x :: xs ++ [b]) w).serial_buffer 1
      hv2 (by rw [← ring_buffer_t.unread_length, hu2]; simp)
    rw [hu2] at hdrop
    have hv3 := ring_buffer_t.advance_valid (receive_all (x :: xs ++ [b]) w).serial_buffer 1 hv2
    refine ⟨hu1, hu2, ?_, ?_, ?_⟩
    · rw [_read_eq fd buf 1 _ hv2, hu2, hd]; rfl
    · rw [_read_eq fd buf 1 _ hv2, hu2, hd]; exact hdrop
    · have hv4 : (_read fd buf 1 (receive_all (x :: xs ++ [b]) w)).2.serial_buffer.valid := by
        rw [_read_eq fd buf 1 _ hv2]; exact ring_buffer_t.advance_valid _ _ hv2
      have hu4 : (_read fd buf 1 (receive_all (x :: xs ++ [b]) w)).2.serial_buffer.unread
          = xs := by
        rw [_read_eq fd buf 1 _ hv2, hu2, hd]; exact hdrop
      rw [handler_unread c _ hv4 (by rw [hu4]; simp at hl; omega), hu4, to_uint8_byte c hc]
      rfl

/-- Witness of C4: one free slot left at `head = 3`, `tail = 5` (126 unread bytes), and the
full buffer at `head = 4`, `tail = 5`. -/
theorem receive_overrun_witness :
    (CYBSP_DEBUG_UART_RECEIVE_EVENT_HANDLER 0x5A
        (World.sample (fun _ => 0x41) 3 5)).serial_buffer.unread
      = (World.sample (fun _ => 0x41) 3 5).serial_buffer.unread ++ [0x5A] ∧
    (CYBSP_DEBUG_UART_RECEIVE_EVENT_HANDLER 0x5A
        (World.sample (fun _ => 0x41) 4 5)).serial_buffer
      = (World.sample (fun _ => 0x41) 4 5).serial_buffer :=
  ⟨((receive_overrun 0x5A (World.sample (fun _ => 0x41) 3 5)
      (by decide) (by decide)).1 (by rw [ring_buffer_t.unread_length]; decide)).1,
   (receive_overrun 0x5A (World.sample (fun _ => 0x41) 4 5)
      (by decide) (by decide)).2.2.1 (by rw [ring_buffer_t.unread_length]; decide)⟩

/-! ## Claims about `retarget_io_init` and the reachable states -/

theorem init_valid (enc : Nat → Nat → Nat → Nat) (w : World) :
    (retarget_io_init enc w).serial_buffer.valid := by
  simp [retarget_io_init, ring_buffer_t.valid, SERIAL_BUFFER_SIZE]

theorem init_unread (enc : Nat → Nat → Nat → Nat) (w : World) :
    (retarget_io_init enc w).serial_buffer.unread = [] := by
  simp [retarget_io_init, ring_buffer_t.unread, ring_buffer_t.count, SERIAL_BUFFER_SIZE]

/-- C7: whatever the state was, after `retarget_io_init` head and tail are 0 and no byte is
unread; a following `_read` returns 0 for every count and changes nothing; a following handler
invocation with the byte `b` and then `_read` with `count ≥ 1` returns 1, with `b` (0x0A when
`b` is 0x0D) as the byte at `buf`, and the buffer is empty again. -/
theorem init_resets (enc : Nat → Nat → Nat → Nat) (w : World) (b : Nat) (hb : b < 256) :
    (retarget_io_init enc w).serial_buffer.head = 0 ∧
    (retarget_io_init enc w).serial_buffer.tail = 0 ∧
    (retarget_io_init enc w).serial_buffer.unread = [] ∧
    (∀ (fd : Int) (buf count : Nat),
      _read fd buf count (retarget_io_init enc w) = (0, retarget_io_init enc w)) ∧
    (∀ (fd : Int) (buf count : Nat), 1 ≤ count →
      (_read fd buf count
        (CYBSP_DEBUG_UART_RECEIVE_EVENT_HANDLER b (retarget_io_init enc w))).1 = 1 ∧
      (_read fd buf count
        (CYBSP_DEBUG_UART_RECEIVE_EVENT_HANDLER b (retarget_io_init enc w))).2.mem buf
        = (if b = 0x0D then 0x0A else b) ∧
      (_read fd buf count
        (CYBSP_DEBUG_UART_RECEIVE_EVENT_HANDLER b
          (retarget_io_init enc w))).2.serial_buffer.unread = []) := by
  have hv := init_valid enc w
  have hu := init_unread enc w
  refine ⟨rfl, rfl, hu, fun fd buf count => _read_empty fd buf count _ hv hu, ?_⟩
  intro fd buf count hc
  obtain ⟨m, rfl⟩ : ∃ m, count = m + 1 := ⟨count - 1, by omega⟩
  have hv1 := handler_valid b _ hv
  have hu1 := handler_unread b _ hv (by rw [hu]; simp)
  rw [hu, List.nil_append, to_uint8_byte b hb] at hu1
  have hd : delivered (m + 1) [b] = [if b = 0x0D then 0x0A else b] := by
    have e : delivered m ([] : List Nat) = [] := by cases m <;> rfl
    simp only [delivered, e]
    split <;> rfl
  have hdrop := ring_buffer_t.advance_unread
    (CYBSP_DEBUG_UART_RECEIVE_EVENT_HANDLER b (retarget_io_init enc w)).serial_buffer 1 hv1
    (by rw [← ring_buffer_t.unread_length, hu1]; simp)
  rw [hu1] at hdrop
  rw [_read_eq fd buf (m + 1) _ hv1, hu1, hd]
  refine ⟨rfl, ?_, hdrop⟩
  simp

/-- Witness of C7: a state with indices out of range is reset; the byte 0x0D then comes out of
`_read` as 0x0A. -/
theorem init_resets_witness :
    (retarget_io_init (fun _ p _ => p)
      (World.sample (fun _ => 0x41) 500 7)).serial_buffer.unread = [] ∧
    (_read 0 1000 4 (CYBSP_DEBUG_UART_RECEIVE_EVENT_HANDLER 0x0D
      (retarget_io_init (fun _ p _ => p) (World.sample (fun _ => 0x41) 500 7)))).1 = 1 ∧
    (_read 0 1000 4 (CYBSP_DEBUG_UART_RECEIVE_EVENT_HANDLER 0x0D
      (retarget_io_init (fun _ p _ => p) (World.sample (fun _ => 0x41) 500 7)))).2.mem 1000
      = 0x0A :=
  ⟨(init_resets (fun _ p _ => p) (World.sample (fun _ => 0x41) 500 7) 0x0D (by decide)).2.2.1,
   ((init_resets (fun _ p _ => p) (World.sample (fun _ => 0x41) 500 7) 0x0D
      (by decide)).2.2.2.2 0 1000 4 (by decide)).1,
   ((init_resets (fun _ p _ => p) (World.sample (fun _ => 0x41) 500 7) 0x0D
      (by decide)).2.2.2.2 0 1000 4 (by decide)).2.1⟩

theorem run_valid (enc : Nat → Nat → Nat → Nat) (op : Op) (w : World)
    (hv : w.serial_buffer.valid) : (op.run enc w).serial_buffer.valid := by
  cases op with
  | init => exact init_valid enc w
  | receive rx => exact handler_valid rx w hv
  | read fd buf count =>
    simp only [Op.run]
    rw [_read_eq fd buf count w hv]
    exact ring_buffer_t.advance_valid _ _ hv

theorem run_all_valid (enc : Nat → Nat → Nat → Nat) (ops : List Op) : ∀ (w : World),
    w.serial_buffer.valid → (run_all enc ops w).serial_buffer.valid := by
  induction ops with
  | nil => intro w hv; exact hv
  | cons op ops ih =>
    intro w hv
    exact ih _ (run_valid enc op w hv)

/-- C9: in every state reached from the state left by `retarget_io_init` through any finite
sequence of `retarget_io_init` calls, handler invocations and `_read` calls, `head < 128`,
`tail < 128` and the number of unread bytes `(head - tail) mod 128` is at most 127 and is the
length of the list of unread bytes. -/
theorem index_invariant (enc : Nat → Nat → Nat → Nat) (w : World) (ops : List Op) :
    (run_all enc ops (retarget_io_init enc w)).serial_buffer.head < 128 ∧
    (run_all enc ops (retarget_io_init enc w)).serial_buffer.tail < 128 ∧
    ((run_all enc ops (retarget_io_init enc w)).serial_buffer.head + 128
      - (run_all enc ops (retarget_io_init enc w)).serial_buffer.tail) % 128 ≤ 127 ∧
    (run_all enc ops (retarget_io_init enc w)).serial_buffer.unread.length
      = ((run_all enc ops (retarget_io_init enc w)).serial_buffer.head + 128
        - (run_all enc ops (retarget_io_init enc w)).serial_buffer.tail) % 128 := by
  have hv := run_all_valid enc ops _ (init_valid enc w)
  refine ⟨hv.1, hv.2, by omega, ?_⟩
  rw [ring_buffer_t.unread_length]
  rfl

/-! ## Claims about `_write` and the descriptor stubs -/

theorem bytes_succ (w : World) (buf n : Nat) :
    w.bytes buf (n + 1) = w.mem buf :: w.bytes (buf + 1) n := by
  simp only [World.bytes, List.range_succ_eq_map, List.map_cons, List.map_map, Nat.add_zero]
  congr 1
  apply List.map_congr_left
  intro i _
  simp only [Function.comp, Nat.succ_eq_add_one]
  congr 1
  omega

/-- What the loop of `_write` computes. -/
theorem _write_loop_eq (n : Nat) : ∀ (buf : Nat) (w : World),
    _write.loop n buf w = { w with uart_tx := w.uart_tx ++ w.bytes buf n } := by
  induction n with
  | zero => intro buf w; simp [_write.loop, World.bytes]
  | succ n ih =>
    intro buf w
    rw [_write.loop, ih, bytes_succ]
    simp [World.bytes]

/-- C5: `_write` hands exactly `count` bytes to the transmit primitive, the i-th being the
byte at `buf + i`, in increasing order; with `count = 0` nothing is sent; `fd` has no influence
and nothing but the transmit record, `serial_buffer` in particular, is changed. -/
theorem write_transmits (fd : Int) (buf count : Nat) (w : World) :
    (_write fd buf count w).2 = { w with uart_tx := w.uart_tx ++ w.bytes buf count } ∧
    (_write fd buf count w).2.uart_tx.length = w.uart_tx.length + count ∧
    (∀ i, i < count →
      (_write fd buf count w).2.uart_tx[w.uart_tx.length + i]? = some (w.mem (buf + i))) ∧
    (_write fd buf 0 w).2 = w ∧
    (∀ fd2 : Int, _write fd2 buf count w = _write fd buf count w) ∧
    (_write fd buf count w).2.serial_buffer = w.serial_buffer := by
  have h : (_write fd buf count w).2 = { w with uart_tx := w.uart_tx ++ w.bytes buf count } :=
    _write_loop_eq count buf w
  refine ⟨h, ?_, ?_, rfl, fun _ => rfl, by rw [h]⟩
  · rw [h]; simp [World.bytes]
  · intro i hi
    rw [h]
    simp only
    rw [List.getElem?_append_right (by omega)]
    simp [World.bytes, List.getElem?_range hi]

/-- What `_write` returns: `count` converted to `int`. -/
theorem _write_result (fd : Int) (buf count : Nat) (w : World) :
    (_write fd buf count w).1 = to_int count := rfl

/-- Up to `INT_MAX` the conversion keeps the value: `_write` returns `count`. -/
theorem _write_result_in_range (fd : Int) (buf count : Nat) (w : World)
    (h : (count : Int) ≤ INT_MAX) : (_write fd buf count w).1 = (count : Int) := by
  rw [_write_result]
  unfold to_int
  unfold INT_MAX at h
  omega

/-- C8: for all arguments and in every state `_close`, `_lseek` and `_fstat` return -1 and
`_isatty` returns 0, and each leaves the state as it is. -/
theorem stubs_constant (fd offset origin : Int) (buffer : Nat) (w : World) :
    _close fd w = (-1, w) ∧ _lseek fd offset origin w = (-1, w) ∧
    _fstat fd buffer w = (-1, w) ∧ _isatty fd w = (0, w) :=
  ⟨rfl, rfl, rfl, rfl⟩

end Retarget
